import Mathlib

/-!
Verification of the download-queue core of a yt-dlp GUI backend.

The definitions below are a shallow embedding of the Rust sources:
* `src-tauri/src/ytdlp/types.rs` (status enum, task/history records),
* `src-tauri/src/ytdlp/db/queue.rs` (the SQLite-backed task store; SQL
  statements are modelled row-by-row over a list of rows, with the
  connection mutex / SQLite write serialization represented by the fact
  that each operation is a pure state transformer),
* `src-tauri/src/ytdlp/download/manager.rs` (the concurrency gate; the
  compare-and-swap retry loop linearizes to a single check-and-increment),
* `src-tauri/src/ytdlp/download/executor.rs` (`append_limited`, the
  success-completion path and the scheduler loop),
* `src-tauri/src/ytdlp/commands/queue.rs` (`retry_download`),
* `src-tauri/src/ytdlp/progress.rs` (progress-line parsing).

Machine floats (`f32` progress values) are modelled as exact rationals;
strings are modelled as Lean `String` / `List Char`, with Rust byte
lengths computed via `Char.utf8Size`.
-/

/-- `DownloadStatus` from `types.rs`. -/
inductive DownloadStatus where
  | Pending
  | Downloading
  | Paused
  | Completed
  | Failed
  | Cancelled
deriving DecidableEq, Repr

/-- The `Display` impl for `DownloadStatus` in `types.rs`. -/
def DownloadStatus.toDbString : DownloadStatus → String
  | .Pending => "pending"
  | .Downloading => "downloading"
  | .Paused => "paused"
  | .Completed => "completed"
  | .Failed => "failed"
  | .Cancelled => "cancelled"

/-- `DownloadStatus::from_str` in `types.rs`: unrecognized strings fall
through to `Pending`. -/
def DownloadStatus.from_str (s : String) : DownloadStatus :=
  if s = "pending" then .Pending
  else if s = "downloading" then .Downloading
  else if s = "paused" then .Paused
  else if s = "completed" then .Completed
  else if s = "failed" then .Failed
  else if s = "cancelled" then .Cancelled
  else .Pending

/-- One row of the `downloads` table (`DownloadTaskInfo` in `types.rs`).
`progress REAL` is modelled as an exact rational. -/
structure DownloadTaskInfo where
  id : Nat
  video_url : String
  video_id : String
  title : String
  format_id : String
  quality_label : String
  output_path : String
  status : DownloadStatus
  progress : Rat
  speed : Option String
  eta : Option String
  error_message : Option String
  created_at : Int
  completed_at : Option Int
deriving DecidableEq, Repr

/-- One row of the `history` table (`HistoryItem` in `types.rs`). -/
structure HistoryItem where
  id : Nat
  video_url : String
  video_id : String
  title : String
  quality_label : String
  format : String
  file_path : String
  file_size : Option Nat
  downloaded_at : Int
deriving DecidableEq, Repr

/-- An enqueue request (`DownloadRequest` in `types.rs`). -/
structure DownloadRequest where
  video_url : String
  video_id : String
  title : String
  format_id : String
  quality_label : String
  output_dir : Option String
  cookie_browser : Option String
deriving DecidableEq, Repr

/-- The persistent store (`Database` over `ytdlp.db`): the `downloads`
table, the `history` table, and the next AUTOINCREMENT rowid. -/
structure Database where
  downloads : List DownloadTaskInfo
  history : List HistoryItem
  nextId : Nat
deriving DecidableEq, Repr

/-- `status IN ('pending', 'downloading')`, the guard used by
`cancel_if_active` and the "active" queries in `db/queue.rs`. -/
def isActiveStatus : DownloadStatus → Bool
  | .Pending => true
  | .Downloading => true
  | _ => false

/-- `Database::get_download` (`db/queue.rs`): `SELECT ... WHERE id = ?1`,
returning the first row with the given id, if any. -/
def Database.get_download (db : Database) (id : Nat) : Option DownloadTaskInfo :=
  db.downloads.find? (fun r => decide (r.id = id))

/-- `Database::insert_download` (`db/queue.rs`): INSERT with the schema
defaults `status DEFAULT 'pending'`, `progress DEFAULT 0.0`, NULL
speed/eta/error/completed_at; returns the fresh rowid. -/
def Database.insert_download (db : Database) (req : DownloadRequest)
    (output_path : String) (created_at : Int) : Database × Nat :=
  let row : DownloadTaskInfo :=
    { id := db.nextId
      video_url := req.video_url
      video_id := req.video_id
      title := req.title
      format_id := req.format_id
      quality_label := req.quality_label
      output_path := output_path
      status := .Pending
      progress := 0
      speed := none
      eta := none
      error_message := none
      created_at := created_at
      completed_at := none }
  ({ db with downloads := db.downloads ++ [row], nextId := db.nextId + 1 }, db.nextId)

/-- `Database::update_download_status` (`db/queue.rs`):
`UPDATE downloads SET status = ?1, error_message = ?2 WHERE id = ?3`. -/
def Database.update_download_status (db : Database) (id : Nat)
    (status : DownloadStatus) (error_msg : Option String) : Database :=
  { db with downloads := db.downloads.map (fun r =>
      if r.id = id then { r with status := status, error_message := error_msg } else r) }

/-- `Database::cancel_if_active` (`db/queue.rs`):
`UPDATE downloads SET status = 'cancelled' WHERE id = ?1 AND status IN
('pending', 'downloading')`, returning `rows_affected > 0`. -/
def Database.cancel_if_active (db : Database) (id : Nat) : Database × Bool :=
  let affected := db.downloads.countP (fun r => decide (r.id = id) && isActiveStatus r.status)
  ({ db with downloads := db.downloads.map (fun r =>
      if r.id = id ∧ isActiveStatus r.status then { r with status := .Cancelled } else r) },
   decide (0 < affected))

/-- `Database::mark_completed` (`db/queue.rs`): `UPDATE downloads SET
status = 'completed', completed_at = ?1, progress = 100.0 WHERE id = ?2`. -/
def Database.mark_completed (db : Database) (id : Nat) (completed_at : Int) : Database :=
  { db with downloads := db.downloads.map (fun r =>
      if r.id = id then
        { r with status := .Completed, completed_at := some completed_at, progress := 100 }
      else r) }

/-- `Database::reset_stale_downloads` (`db/queue.rs`): `UPDATE downloads
SET status = 'failed', error_message = 'App closed during download'
WHERE status = 'downloading'`, returning the affected-row count. -/
def Database.reset_stale_downloads (db : Database) : Database × Nat :=
  let rows := db.downloads.countP (fun r => decide (r.status = DownloadStatus.Downloading))
  ({ db with downloads := db.downloads.map (fun r =>
      if r.status = DownloadStatus.Downloading then
        { r with status := .Failed, error_message := some "App closed during download" }
      else r) }, rows)

/-- The in-memory concurrency gate (`DownloadManager` in
`download/manager.rs`): the two atomic counters. The cancellation-signal
registry is irrelevant to the bound and omitted. -/
structure DownloadManager where
  active_count : Nat
  max_concurrent : Nat
deriving DecidableEq, Repr

/-- `DownloadManager::new`: the ceiling is clamped to `[1, 20]`. -/
def DownloadManager.new (max_concurrent : Nat) : DownloadManager :=
  { active_count := 0, max_concurrent := min (max max_concurrent 1) 20 }

/-- `DownloadManager::try_acquire`: the compare-and-swap retry loop
linearizes to one atomic compare-against-ceiling and increment. -/
def DownloadManager.try_acquire (m : DownloadManager) : Bool × DownloadManager :=
  if m.active_count ≥ m.max_concurrent then (false, m)
  else (true, { m with active_count := m.active_count + 1 })

/-- `DownloadManager::release`: decrement saturating at zero. -/
def DownloadManager.release (m : DownloadManager) : DownloadManager :=
  { m with active_count := m.active_count - 1 }

/-- The Bool-valued "status = 'pending'" predicate of the claim subquery. -/
def pendingP (r : DownloadTaskInfo) : Bool :=
  decide (r.status = DownloadStatus.Pending)

/-- The first row attaining the minimal `created_at` (seeded with `best`):
`ORDER BY created_at ASC LIMIT 1` over the scanned rows, ties resolved to
the earliest row. -/
def minByCreated : DownloadTaskInfo → List DownloadTaskInfo → DownloadTaskInfo
  | best, [] => best
  | best, r :: rs => minByCreated (if r.created_at < best.created_at then r else best) rs

/-- The `UPDATE downloads SET status = 'downloading' WHERE id = ...` part
of the claim statement. -/
def setDownloadingById (rows : List DownloadTaskInfo) (id : Nat) : List DownloadTaskInfo :=
  rows.map (fun r => if r.id = id then { r with status := .Downloading } else r)

/-- `Database::claim_next_pending` (`db/queue.rs`): one conditional UPDATE
keyed by the oldest-pending subquery, RETURNING the claimed id, followed
by `get_download` on that id. The SQLite connection mutex serializes
racing invocations, so each racing call sees the state left by the
previous one: concurrency is modelled by sequential composition. -/
def Database.claim_next_pending (db : Database) : Database × Option DownloadTaskInfo :=
  match db.downloads.filter pendingP with
  | [] => (db, none)
  | p :: ps =>
    let chosen := minByCreated p ps
    let db1 := { db with downloads := setDownloadingById db.downloads chosen.id }
    (db1, db1.get_download chosen.id)

/-- `n` successive `claim_next_pending` invocations, collecting the rows
they return (stopping early if one returns nothing). -/
def claimN : Nat → Database → Database × List DownloadTaskInfo
  | 0, db => (db, [])
  | n + 1, db =>
    match db.claim_next_pending with
    | (db1, none) => (db1, [])
    | (db1, some t) =>
      let rest := claimN n db1
      (rest.1, t :: rest.2)

/-- Which statements of the completion transaction succeed; models the
storage-I/O outcomes of the two `tx.execute` calls and `tx.commit` in
`Database::complete_and_record`. -/
structure TxOutcome where
  updateOk : Bool
  insertOk : Bool
  commitOk : Bool
deriving DecidableEq, Repr

/-- The history INSERT inside the completion transaction. -/
def Database.insertHistoryRow (db : Database) (h : HistoryItem) : Database :=
  { db with history := db.history ++ [h] }

/-- `Database::complete_and_record` (`db/queue.rs`): a rusqlite
transaction running the completed-UPDATE (the same statement text as
`mark_completed`) and the history INSERT, then committing. If any
statement or the commit fails, the transaction is rolled back on drop:
the result is `none` and the persistent state stays as it was (`db`). -/
def Database.complete_and_record (db : Database) (id : Nat) (completed_at : Int)
    (h : HistoryItem) (o : TxOutcome) : Option Database :=
  if o.updateOk then
    let w1 := db.mark_completed id completed_at
    if o.insertOk then
      let w2 := w1.insertHistoryRow h
      if o.commitOk then some w2 else none
    else none
  else none

/-- The success branch of `execute_download` (`download/executor.rs`,
lines 420-430): try `complete_and_record`; if it returns an error, fall
back to a bare `mark_completed` (itself fallible, `fallbackOk`). -/
def finishSuccess (db : Database) (id : Nat) (completed_at : Int)
    (h : HistoryItem) (o : TxOutcome) (fallbackOk : Bool) : Database :=
  match db.complete_and_record id completed_at h o with
  | some db2 => db2
  | none => if fallbackOk then db.mark_completed id completed_at else db

/-- `retry_download` (`commands/queue.rs`): fetch the row (error when it
does not exist), reset it to Pending unconditionally, and if a gate slot
was acquired immediately flip it to Downloading and dispatch. -/
def retry_download (db : Database) (task_id : Nat) (acquired : Bool) : Option Database :=
  match db.get_download task_id with
  | none => none
  | some _ =>
    let db1 := db.update_download_status task_id .Pending none
    some (if acquired then db1.update_download_status task_id .Downloading none else db1)

/-- Rust byte length of a string modelled as a char list. -/
def bytelen (s : List Char) : Nat := (s.map Char.utf8Size).sum

/-- Drop leading whole characters until at least `k` bytes are gone:
this is the `buffer.drain(..cut_at)` of `append_limited`, whose `cut_at`
is the least char boundary at or after the overflow (the Rust code takes
the overflow itself when it is a boundary, otherwise the first boundary
after it, falling back to the full length). -/
def dropBytes : List Char → Nat → List Char
  | s, 0 => s
  | [], _ => []
  | c :: cs, k + 1 => dropBytes cs (k + 1 - c.utf8Size)

/-- `append_limited` (`download/executor.rs`): append `line` to `buffer`
with a `'\n'` separator (no separator into an empty buffer), then if the
byte length exceeds `max_bytes`, evict leading characters. -/
def append_limited (buffer line : List Char) (max_bytes : Nat) : List Char :=
  let joined := (if buffer.isEmpty then [] else buffer ++ ['\n']) ++ line
  if bytelen joined > max_bytes then dropBytes joined (bytelen joined - max_bytes) else joined

/-- `ProgressInfo` from `types.rs`; the `f32` percent is modelled as an
exact rational. -/
structure ProgressInfo where
  percent : Rat
  speed : Option String
  eta : Option String
deriving DecidableEq, Repr

/-- The character class `[0-9.]` of the progress regex. -/
def isPercentChar (c : Char) : Bool := c.isDigit || c = '.'

/-- Rust `str::trim` (whitespace from both ends). -/
def trimChars (l : List Char) : List Char :=
  ((l.dropWhile Char.isWhitespace).reverse.dropWhile Char.isWhitespace).reverse

/-- Value of a digit string. -/
def digitsVal (ds : List Char) : Nat := ds.foldl (fun a c => 10 * a + (c.toNat - 48)) 0

/-- Rust `f32::from_str` on the strings the regex group `[0-9.]+` can
capture (digits and dots only): accepted exactly when the string holds at
least one digit and at most one dot; the value is the exact decimal. -/
def parseDecimal (p : List Char) : Option Rat :=
  match p.dropWhile Char.isDigit with
  | [] =>
    if (p.takeWhile Char.isDigit).isEmpty then none
    else some (digitsVal (p.takeWhile Char.isDigit) : Rat)
  | '.' :: frac =>
    if frac.all Char.isDigit && !((p.takeWhile Char.isDigit).isEmpty && frac.isEmpty) then
      some ((digitsVal (p.takeWhile Char.isDigit) : Rat) +
        (digitsVal frac : Rat) / ((10 : Rat) ^ frac.length))
    else none
  | _ => none

/-- The non-pipe character class `[^|]` of the progress regex. -/
def notPipe (c : Char) : Bool := !(decide (c = '|'))

/-- Split the remainder after `<percent>%|` against `([^|]*)\|([^|]*)$`:
succeeds exactly when one more pipe is present and nothing follows the
last group but non-pipe characters. -/
def splitPipe (r : List Char) : Option (List Char × List Char) :=
  match r.dropWhile notPipe with
  | '|' :: g3 =>
    if g3.any (fun c => decide (c = '|')) then none
    else some (r.takeWhile notPipe, g3)
  | _ => none

/-- The speed/eta field mapping of `parse_progress_line`: trim, then send
empty, `N/A` and `Unknown` to absent. -/
def mapField (g : List Char) : Option String :=
  let t := trimChars g
  if t.isEmpty ∨ t = "N/A".data ∨ t = "Unknown".data then none else some (String.mk t)

/-- `parse_progress_line` (`progress.rs`) over chars: trim the line, then
match the anchored regex `([0-9.]+)%\|([^|]*)\|([^|]*)` in full (group 1
is forced to the maximal digit-dot run, since `%` is outside its class),
parse the percent (`?`-propagated failure gives `none`), and map the
speed and eta fields. -/
def parse_progress_chars (line : List Char) : Option ProgressInfo :=
  match (trimChars line).dropWhile isPercentChar with
  | '%' :: '|' :: r =>
    if ((trimChars line).takeWhile isPercentChar).isEmpty then none
    else
      match splitPipe r with
      | none => none
      | some (g2, g3) =>
        match parseDecimal ((trimChars line).takeWhile isPercentChar) with
        | none => none
        | some pct => some { percent := pct, speed := mapField g2, eta := mapField g3 }
  | _ => none

/-- `parse_progress_line` (`progress.rs`) on a string. -/
def parse_progress_line (line : String) : Option ProgressInfo :=
  parse_progress_chars line.data

/-- `progress_template` (`progress.rs`): the `--progress-template`
argument handed to the worker. -/
def progress_template : String :=
  "download:%(progress._percent_str)s|%(progress._speed_str)s|%(progress._eta_str)s"

/-- The operations the system performs on the task store, each tagged
with the status its call site writes: `dispatch` is the
`update_download_status(.., Downloading, ..)` of `add_to_queue` and
`retry_download`, `fail` the Failed writes of the executor, `forceCancel`
the executor's cancel-branch write, `complete` the success branch
(`finishSuccess`), and `retry` is `retry_download`. -/
inductive QueueOp where
  | enqueue (req : DownloadRequest) (output_path : String) (created_at : Int)
  | claim
  | dispatch (id : Nat)
  | fail (id : Nat) (msg : String)
  | forceCancel (id : Nat)
  | cancel (id : Nat)
  | complete (id : Nat) (ts : Int) (h : HistoryItem) (o : TxOutcome) (fb : Bool)
  | sweep
  | retry (id : Nat) (acquired : Bool)

/-- Effect of one operation on the store (return values dropped). -/
def applyOp (db : Database) : QueueOp → Database
  | .enqueue req path ts => (db.insert_download req path ts).1
  | .claim => db.claim_next_pending.1
  | .dispatch id => db.update_download_status id .Downloading none
  | .fail id msg => db.update_download_status id .Failed (some msg)
  | .forceCancel id => db.update_download_status id .Cancelled none
  | .cancel id => (db.cancel_if_active id).1
  | .complete id ts h o fb => finishSuccess db id ts h o fb
  | .sweep => db.reset_stale_downloads.1
  | .retry id acq => (retry_download db id acq).getD db

/-- Effect of a whole operation sequence. -/
def applyOps (db : Database) : List QueueOp → Database
  | [] => db
  | op :: ops => applyOps (applyOp db op) ops

/-- Every row carrying `id` currently has a status satisfying `P`. -/
def rowGuard (db : Database) (id : Nat) (P : DownloadStatus → Prop) : Prop :=
  ∀ r ∈ db.downloads, r.id = id → P r.status

/-- The call-site guards under which the system issues each operation:
dispatch targets the freshly inserted (or freshly reset) Pending row; the
executor's raw Failed/Cancelled writes target the task it claimed (still
Downloading, or already flipped to Cancelled by a racing
`cancel_if_active`); retry is restricted to Failed or Cancelled rows —
the restriction the code does NOT enforce. -/
def opGuarded (db : Database) : QueueOp → Prop
  | .dispatch id => rowGuard db id (fun s => s = .Pending)
  | .fail id _ => rowGuard db id (fun s => s = .Downloading ∨ s = .Cancelled)
  | .forceCancel id => rowGuard db id (fun s => s = .Downloading ∨ s = .Cancelled)
  | .retry id _ => rowGuard db id (fun s => s = .Failed ∨ s = .Cancelled)
  | _ => True

/-- A trace of operations each issued under its call-site guard. -/
def GuardedTrace (db : Database) : List QueueOp → Prop
  | [] => True
  | op :: ops => opGuarded db op ∧ GuardedTrace (applyOp db op) ops

/-- Store well-formedness: row ids are pairwise distinct (the PRIMARY KEY
constraint) and below the next AUTOINCREMENT id. -/
def Database.WF (db : Database) : Prop :=
  (db.downloads.map (fun r => r.id)).Nodup ∧ ∀ r ∈ db.downloads, r.id < db.nextId

/-- Modelled from the spec (§6): the three-field progress pattern's first
field, "<percent>", read as a decimal numeral — digits and dots only, at
least one digit, at most one dot. -/
def SpecNumeral (p : List Char) : Prop :=
  p ≠ [] ∧ (∀ c ∈ p, c.isDigit ∨ c = '.') ∧
    p.countP (fun c => decide (c = '.')) ≤ 1 ∧ ∃ c ∈ p, c.isDigit

/-- Modelled from the spec (§6): the line decomposes as
`<percent>%|<speed>|<eta>` with a numeral percent and pipe-free speed and
eta fields. -/
def SpecProgressLine (l p s e : List Char) : Prop :=
  l = p ++ '%' :: '|' :: (s ++ '|' :: e) ∧ SpecNumeral p ∧ '|' ∉ s ∧ '|' ∉ e

/-- A sample Failed row used by concrete witnesses. -/
def sampleFailedRow : DownloadTaskInfo :=
  { id := 1, video_url := "https://example.com/v", video_id := "v1",
    title := "t1", format_id := "22", quality_label := "720p",
    output_path := "/tmp/out.mp4", status := .Failed, progress := 0,
    speed := none, eta := none, error_message := some "boom",
    created_at := 10, completed_at := none }

/-- A sample Downloading row used by concrete witnesses. -/
def sampleDownloadingRow : DownloadTaskInfo :=
  { sampleFailedRow with
      id := 2, status := .Downloading, error_message := none, created_at := 11 }

/-- A sample Completed row used by concrete witnesses. -/
def sampleCompletedRow : DownloadTaskInfo :=
  { sampleFailedRow with
      id := 3, status := .Completed, error_message := none, progress := 100,
      created_at := 12, completed_at := some 20 }

/-- A sample Pending row used by concrete witnesses. -/
def samplePendingRow : DownloadTaskInfo :=
  { sampleFailedRow with
      id := 4, status := .Pending, error_message := none, created_at := 13 }

/-- A second sample Pending row (older) used by concrete witnesses. -/
def samplePendingRow2 : DownloadTaskInfo :=
  { sampleFailedRow with
      id := 5, status := .Pending, error_message := none, created_at := 9 }

/-- A sample history record used by concrete witnesses. -/
def sampleHistory : HistoryItem :=
  { id := 0, video_url := "https://example.com/v", video_id := "v1",
    title := "t1", quality_label := "720p", format := "22",
    file_path := "/tmp/out.mp4", file_size := some 42, downloaded_at := 20 }

/-- A small sample store used by concrete witnesses. -/
def sampleDb : Database :=
  { downloads := [sampleFailedRow, sampleDownloadingRow, sampleCompletedRow,
                  samplePendingRow, samplePendingRow2],
    history := [], nextId := 6 }

/-- A sample store holding only the two Pending rows. -/
def sampleDb2 : Database :=
  { downloads := [samplePendingRow, samplePendingRow2], history := [], nextId := 6 }

/-- A sample store holding only the Downloading row. -/
def sampleDbD : Database :=
  { downloads := [sampleDownloadingRow], history := [], nextId := 3 }

/-- A sample store holding only the Failed row. -/
def sampleDbF : Database :=
  { downloads := [sampleFailedRow], history := [], nextId := 2 }

/-- A sample store holding only the Completed row. -/
def sampleDbC : Database :=
  { downloads := [sampleCompletedRow], history := [], nextId := 4 }

/-! ## Helper lemmas -/

theorem map_fix_of_all (l : List DownloadTaskInfo) (f : DownloadTaskInfo → DownloadTaskInfo)
    (h : ∀ r ∈ l, f r = r) : l.map f = l := by
  induction l with
  | nil => rfl
  | cons a t ih =>
    simp only [List.map_cons, h a (List.mem_cons_self a t),
      ih (fun r hr => h r (List.mem_cons_of_mem a hr))]

theorem find_map_preserving (f : DownloadTaskInfo → DownloadTaskInfo)
    (hf : ∀ r, (f r).id = r.id) (l : List DownloadTaskInfo) (id : Nat) :
    (l.map f).find? (fun r => decide (r.id = id)) =
      (l.find? (fun r => decide (r.id = id))).map f := by
  induction l with
  | nil => rfl
  | cons a t ih =>
    by_cases h : a.id = id
    · have h2 : (f a).id = id := by rw [hf]; exact h
      rw [List.map_cons, List.find?_cons_of_pos _ (by simpa using h2),
        List.find?_cons_of_pos _ (by simpa using h)]
      rfl
    · have h2 : ¬(f a).id = id := by rw [hf]; exact h
      rw [List.map_cons, List.find?_cons_of_neg _ (by simpa using h2),
        List.find?_cons_of_neg _ (by simpa using h), ih]

theorem bytelen_cons (c : Char) (cs : List Char) :
    bytelen (c :: cs) = c.utf8Size + bytelen cs := by
  simp [bytelen]

theorem dropBytes_suffix (s : List Char) (k : Nat) :
    ∃ t, t ++ dropBytes s k = s := by
  induction s generalizing k with
  | nil => exact ⟨[], by cases k <;> rfl⟩
  | cons c cs ih =>
    cases k with
    | zero => exact ⟨[], rfl⟩
    | succ k =>
      obtain ⟨t, ht⟩ := ih (k + 1 - c.utf8Size)
      exact ⟨c :: t, by simp only [dropBytes, List.cons_append, ht]⟩

theorem bytelen_dropBytes_le (s : List Char) (k : Nat) :
    bytelen (dropBytes s k) ≤ bytelen s - k := by
  induction s generalizing k with
  | nil => cases k <;> simp [dropBytes, bytelen]
  | cons c cs ih =>
    cases k with
    | zero => simp [dropBytes]
    | succ k =>
      have h1 := ih (k + 1 - c.utf8Size)
      have hc : 1 ≤ c.utf8Size := c.utf8Size_pos
      have h2 : bytelen (c :: cs) = c.utf8Size + bytelen cs := bytelen_cons c cs
      simp only [dropBytes]
      omega

/-! ## Claim theorems -/

/-- Claim C10: rendering a status to its database string and parsing it
back is the identity, and `from_str` maps every unrecognized string to
`Pending`. -/
theorem download_status_roundtrip :
    (∀ s : DownloadStatus, DownloadStatus.from_str s.toDbString = s) ∧
    (∀ str : String,
      str ∉ ["pending", "downloading", "paused", "completed", "failed", "cancelled"] →
      DownloadStatus.from_str str = .Pending) := by
  constructor
  · intro s; cases s <;> rfl
  · intro str h
    simp only [List.mem_cons, List.not_mem_nil, or_false, not_or] at h
    obtain ⟨h1, h2, h3, h4, h5, h6⟩ := h
    simp [DownloadStatus.from_str, h1, h2, h3, h4, h5, h6]

/-- Claim C5: `try_acquire` succeeds and increments the count by exactly
one precisely when the count is strictly below the ceiling; at or above
the ceiling it returns false and leaves the gate unchanged, so an
acquisition never pushes the count above the ceiling. -/
theorem try_acquire_spec (m : DownloadManager) :
    (m.try_acquire.1 = true ↔ m.active_count < m.max_concurrent) ∧
    (m.try_acquire.1 = true →
      m.try_acquire.2.active_count = m.active_count + 1 ∧
      m.try_acquire.2.max_concurrent = m.max_concurrent ∧
      m.try_acquire.2.active_count ≤ m.max_concurrent) ∧
    (m.try_acquire.1 = false → m.try_acquire.2 = m) := by
  unfold DownloadManager.try_acquire
  by_cases h : m.active_count ≥ m.max_concurrent
  · rw [if_pos h]
    refine ⟨by simpa using h, fun hc => by simp at hc, fun _ => rfl⟩
  · rw [if_neg h]
    exact ⟨by simpa using Nat.lt_of_not_le h, fun _ => ⟨rfl, rfl, Nat.lt_of_not_le h⟩,
      fun hc => by simp at hc⟩

/-- Claim C4: `cancel_if_active` returns true exactly when a row with the
given id is Pending or Downloading; the active row becomes Cancelled; on
false the whole store (every field of every row) is unchanged; history is
never touched. -/
theorem cancel_if_active_spec (db : Database) (id : Nat) :
    ((db.cancel_if_active id).2 = true ↔
      ∃ r ∈ db.downloads, r.id = id ∧ isActiveStatus r.status = true) ∧
    ((db.cancel_if_active id).2 = false → (db.cancel_if_active id).1 = db) ∧
    (∀ r, db.get_download id = some r → isActiveStatus r.status = true →
      (db.cancel_if_active id).1.get_download id = some { r with status := .Cancelled }) ∧
    ((db.cancel_if_active id).1.history = db.history) := by
  refine ⟨?_, ?_, ?_, rfl⟩
  · simp only [Database.cancel_if_active, decide_eq_true_eq]
    rw [List.countP_pos_iff]
    simp [Bool.and_eq_true, decide_eq_true_eq]
  · intro h2
    have hc : db.downloads.countP
        (fun r => decide (r.id = id) && isActiveStatus r.status) = 0 := by
      simp only [Database.cancel_if_active] at h2
      have := of_decide_eq_false h2
      omega
    have hall := List.countP_eq_zero.mp hc
    have hfix : db.downloads.map (fun r =>
        if r.id = id ∧ isActiveStatus r.status then { r with status := .Cancelled } else r) =
        db.downloads := by
      refine map_fix_of_all _ _ (fun r hr => ?_)
      have := hall r hr
      rw [if_neg]
      intro ⟨ha, hb⟩
      exact this (by simp [ha, hb])
    show { db with downloads := _ } = db
    rw [hfix]
  · intro r hr hact
    have hf : ∀ x : DownloadTaskInfo,
        ((if x.id = id ∧ isActiveStatus x.status then { x with status := .Cancelled }
          else x) : DownloadTaskInfo).id = x.id := by
      intro x; by_cases h : x.id = id ∧ isActiveStatus x.status <;> simp [h]
    simp only [Database.get_download] at hr
    have hid : r.id = id := by simpa using List.find?_some hr
    show (db.downloads.map _).find? _ = _
    rw [find_map_preserving _ hf _ id, hr]
    simp only [Option.map_some']
    rw [if_pos ⟨hid, hact⟩]

/-- Claim C6: the startup sweep marks every Downloading row Failed with
the interruption message, returns exactly the number of such rows,
leaves every other row (and the history) entirely unchanged, and
afterwards no row is Downloading. -/
theorem reset_stale_downloads_spec (db : Database) :
    (db.reset_stale_downloads.2 =
      (db.downloads.filter (fun r => decide (r.status = DownloadStatus.Downloading))).length) ∧
    (db.reset_stale_downloads.1.downloads.length = db.downloads.length) ∧
    (∀ i (h1 : i < db.downloads.length)
        (h2 : i < db.reset_stale_downloads.1.downloads.length),
      (db.downloads[i].status = DownloadStatus.Downloading →
        db.reset_stale_downloads.1.downloads[i] =
          { db.downloads[i] with
              status := .Failed, error_message := some "App closed during download" }) ∧
      (db.downloads[i].status ≠ DownloadStatus.Downloading →
        db.reset_stale_downloads.1.downloads[i] = db.downloads[i])) ∧
    (∀ r ∈ db.reset_stale_downloads.1.downloads, r.status ≠ DownloadStatus.Downloading) ∧
    (db.reset_stale_downloads.1.history = db.history) := by
  refine ⟨?_, ?_, ?_, ?_, rfl⟩
  · simp [Database.reset_stale_downloads, List.countP_eq_length_filter]
  · simp [Database.reset_stale_downloads]
  · intro i h1 h2
    constructor
    · intro hst
      simp only [Database.reset_stale_downloads, List.getElem_map]
      rw [if_pos hst]
    · intro hst
      simp only [Database.reset_stale_downloads, List.getElem_map]
      rw [if_neg hst]
  · intro r hr
    simp only [Database.reset_stale_downloads, List.mem_map] at hr
    obtain ⟨a, _, rfl⟩ := hr
    by_cases h : a.status = DownloadStatus.Downloading
    · rw [if_pos h]; simp
    · rw [if_neg h]; exact h

theorem takeWhile_append_cons (P : Char → Bool) (l1 : List Char) (c : Char) (l2 : List Char)
    (h1 : ∀ x ∈ l1, P x = true) (hc : P c = false) :
    (l1 ++ c :: l2).takeWhile P = l1 ∧ (l1 ++ c :: l2).dropWhile P = c :: l2 := by
  induction l1 with
  | nil => simp [List.takeWhile_cons, List.dropWhile_cons, hc]
  | cons a t ih =>
    have ha := h1 a (List.mem_cons_self a t)
    obtain ⟨ih1, ih2⟩ := ih (fun x hx => h1 x (List.mem_cons_of_mem a hx))
    simp [List.takeWhile_cons, List.dropWhile_cons, ha, ih1, ih2]

theorem dropWhile_head_false (P : Char → Bool) (l : List Char) (c : Char) (cs : List Char)
    (h : l.dropWhile P = c :: cs) : P c = false := by
  induction l with
  | nil => simp at h
  | cons a t ih =>
    rw [List.dropWhile_cons] at h
    by_cases hP : P a = true
    · rw [if_pos hP] at h; exact ih h
    · rw [if_neg hP] at h
      injection h with h1 _
      subst h1
      simpa using hP

theorem parseDecimal_some_iff (p : List Char)
    (hp : ∀ c ∈ p, c.isDigit = true ∨ c = '.') :
    (∃ v, parseDecimal p = some v) ↔
      (p.countP (fun c => decide (c = '.')) ≤ 1 ∧ ∃ c ∈ p, c.isDigit = true) := by
  have hsplit : p.takeWhile Char.isDigit ++ p.dropWhile Char.isDigit = p :=
    List.takeWhile_append_dropWhile (p := Char.isDigit) (l := p)
  have hipdigit : ∀ c ∈ p.takeWhile Char.isDigit, c.isDigit = true :=
    fun c hc => List.mem_takeWhile_imp hc
  have hdigit_ne_dot : ∀ c : Char, c.isDigit = true → ¬(c = '.') := by
    intro c hcd hEq
    subst hEq
    exact absurd hcd (by decide)
  cases hrest : p.dropWhile Char.isDigit with
  | nil =>
    have hp_eq : p.takeWhile Char.isDigit = p := by
      have h := hsplit
      rw [hrest, List.append_nil] at h
      exact h
    simp only [parseDecimal, hrest]
    constructor
    · rintro ⟨v, hv⟩
      have hne : ¬(p.takeWhile Char.isDigit).isEmpty = true := by
        intro hE
        rw [if_pos hE] at hv
        exact absurd hv (by simp)
      have hnel : p.takeWhile Char.isDigit ≠ [] := by
        intro hE
        exact hne (by simp [hE])
      obtain ⟨c, hc⟩ := List.exists_mem_of_ne_nil _ hnel
      refine ⟨?_, c, hp_eq ▸ hc, hipdigit c hc⟩
      have hz : ∀ c ∈ p, ¬(decide (c = '.') = true) := by
        intro c hcp hdot
        rw [decide_eq_true_eq] at hdot
        exact hdigit_ne_dot c (hipdigit c (by rw [hp_eq]; exact hcp)) hdot
      have := List.countP_eq_zero.mpr hz
      omega
    · rintro ⟨-, c, hcp, hcd⟩
      have hnel : p.takeWhile Char.isDigit ≠ [] := by
        intro hE
        rw [hE] at hp_eq
        rw [← hp_eq] at hcp
        simp at hcp
      rw [if_neg (by simpa using hnel)]
      exact ⟨_, rfl⟩
  | cons c0 rs =>
    have hc0 : c0.isDigit = false := dropWhile_head_false _ _ _ _ hrest
    have hc0p : c0 ∈ p := by
      rw [← hsplit, hrest]
      exact List.mem_append_right _ (List.mem_cons_self c0 rs)
    have hc0dot : c0 = '.' := by
      rcases hp c0 hc0p with h | h
      · rw [h] at hc0; cases hc0
      · exact h
    subst hc0dot
    have hp_eq : p.takeWhile Char.isDigit ++ '.' :: rs = p := by
      have h := hsplit
      rw [hrest] at h
      exact h
    have hrsmem : ∀ c ∈ rs, c ∈ p := by
      intro c hc
      rw [← hp_eq]
      exact List.mem_append_right _ (List.mem_cons_of_mem _ hc)
    have hcount : p.countP (fun c => decide (c = '.')) =
        1 + rs.countP (fun c => decide (c = '.')) := by
      rw [← hp_eq, List.countP_append, List.countP_cons_of_pos _ _ (by simp)]
      have hz : (p.takeWhile Char.isDigit).countP (fun c => decide (c = '.')) = 0 :=
        List.countP_eq_zero.mpr (fun c hc => by
          simpa using hdigit_ne_dot c (hipdigit c hc))
      omega
    simp only [parseDecimal, hrest]
    constructor
    · rintro ⟨v, hv⟩
      have hcond : (rs.all Char.isDigit && !((p.takeWhile Char.isDigit).isEmpty &&
          rs.isEmpty)) = true := by
        by_contra hcf
        rw [if_neg hcf] at hv
        exact absurd hv (by simp)
      rw [Bool.and_eq_true] at hcond
      obtain ⟨hall, hne⟩ := hcond
      rw [List.all_eq_true] at hall
      constructor
      · have hz : rs.countP (fun c => decide (c = '.')) = 0 :=
          List.countP_eq_zero.mpr (fun c hc => by
            simpa using hdigit_ne_dot c (hall c hc))
        omega
      · rcases hip : p.takeWhile Char.isDigit with _ | ⟨a, t⟩
        · have hrsne : rs ≠ [] := by
            intro hE
            rw [hip, hE] at hne
            simp at hne
          obtain ⟨c, hc⟩ := List.exists_mem_of_ne_nil _ hrsne
          exact ⟨c, hrsmem c hc, hall c hc⟩
        · refine ⟨a, ?_, hipdigit a (by rw [hip]; exact List.mem_cons_self a t)⟩
          rw [← hp_eq, hip]
          exact List.mem_append_left _ (List.mem_cons_self a t)
    · rintro ⟨hdots, c, hcp, hcd⟩
      have hall : ∀ x ∈ rs, x.isDigit = true := by
        intro x hx
        rcases hp x (hrsmem x hx) with h | h
        · exact h
        · exfalso
          have hpos : 0 < rs.countP (fun c => decide (c = '.')) :=
            List.countP_pos_iff.mpr ⟨x, hx, by simp [h]⟩
          omega
      have hnboth : ¬((p.takeWhile Char.isDigit).isEmpty = true ∧ rs.isEmpty = true) := by
        rintro ⟨h1, h2⟩
        have hip : p.takeWhile Char.isDigit = [] := by simpa using h1
        have hrs : rs = [] := by simpa using h2
        rw [← hp_eq, hip, hrs] at hcp
        simp at hcp
        subst hcp
        exact absurd hcd (by decide)
      rw [if_pos]
      · exact ⟨_, rfl⟩
      · rw [Bool.and_eq_true]
        refine ⟨List.all_eq_true.mpr hall, ?_⟩
        cases hIE : (p.takeWhile Char.isDigit).isEmpty with
        | false => simp
        | true =>
          cases hRE : rs.isEmpty with
          | false => simp
          | true => exact absurd ⟨hIE, hRE⟩ hnboth

/-- Claim C9: `append_limited` keeps the buffer within `max_bytes` bytes
and the result is a suffix of the old content joined to the new line
with a newline separator (whole characters are dropped from the front,
so the cut always falls on a character boundary and the oldest bytes are
evicted first). -/
theorem append_limited_spec (buffer line : List Char) (max_bytes : Nat) :
    bytelen (append_limited buffer line max_bytes) ≤ max_bytes ∧
    ∃ dropped, dropped ++ append_limited buffer line max_bytes =
      (if buffer.isEmpty then [] else buffer ++ ['\n']) ++ line := by
  unfold append_limited
  by_cases h : bytelen ((if buffer.isEmpty then [] else buffer ++ ['\n']) ++ line) > max_bytes
  · rw [if_pos h]
    constructor
    · have h1 := bytelen_dropBytes_le
        ((if buffer.isEmpty then [] else buffer ++ ['\n']) ++ line)
        (bytelen ((if buffer.isEmpty then [] else buffer ++ ['\n']) ++ line) - max_bytes)
      omega
    · exact dropBytes_suffix _ _
  · rw [if_neg h]
    exact ⟨Nat.le_of_not_lt h, [], rfl⟩

theorem splitPipe_of_split (s e : List Char) (hs : '|' ∉ s) (he : '|' ∉ e) :
    splitPipe (s ++ '|' :: e) = some (s, e) := by
  have h1 : ∀ x ∈ s, notPipe x = true := by
    intro x hx
    simp only [notPipe, Bool.not_eq_true', decide_eq_false_iff_not]
    intro hEq
    exact hs (hEq ▸ hx)
  obtain ⟨ht, hd⟩ := takeWhile_append_cons notPipe s '|' e h1 (by decide)
  have hcond : ¬(e.any (fun c => decide (c = '|')) = true) := by
    rw [List.any_eq_true]
    rintro ⟨x, hx, hxe⟩
    rw [decide_eq_true_eq] at hxe
    exact he (hxe ▸ hx)
  simp only [splitPipe, hd, ht]
  rw [if_neg hcond]

theorem splitPipe_eq_some (r g2 g3 : List Char) (h : splitPipe r = some (g2, g3)) :
    r = g2 ++ '|' :: g3 ∧ '|' ∉ g2 ∧ '|' ∉ g3 := by
  have hsplit : r.takeWhile notPipe ++ r.dropWhile notPipe = r :=
    List.takeWhile_append_dropWhile (p := notPipe) (l := r)
  unfold splitPipe at h
  split at h
  case h_2 => exact absurd h (by simp)
  case h_1 g3' heq =>
    split at h
    · exact absurd h (by simp)
    case isFalse hany =>
      rw [Option.some.injEq, Prod.mk.injEq] at h
      obtain ⟨h1, h2⟩ := h
      subst h2
      constructor
      · rw [← hsplit, heq, h1]
      constructor
      · intro hmem
        rw [← h1] at hmem
        have := List.mem_takeWhile_imp hmem
        exact absurd this (by decide)
      · intro hmem
        exact hany (List.any_eq_true.mpr ⟨'|', hmem, by simp⟩)

theorem parse_progress_chars_some (line p s e : List Char)
    (htrim : trimChars line = p ++ '%' :: '|' :: (s ++ '|' :: e))
    (hp : ∀ c ∈ p, isPercentChar c = true) (hpne : p ≠ [])
    (hs : '|' ∉ s) (he : '|' ∉ e) (v : Rat) (hv : parseDecimal p = some v) :
    parse_progress_chars line =
      some { percent := v, speed := mapField s, eta := mapField e } := by
  obtain ⟨ht, hd⟩ :=
    takeWhile_append_cons isPercentChar p '%' ('|' :: (s ++ '|' :: e)) hp (by decide)
  have hpe : p.isEmpty = false := by
    cases p with
    | nil => exact absurd rfl hpne
    | cons a t => rfl
  simp only [parse_progress_chars, htrim, hd, ht, hpe, splitPipe_of_split s e hs he, hv,
    Bool.false_eq_true, if_false]

theorem parse_progress_chars_decomposition (line : List Char) (info : ProgressInfo)
    (h : parse_progress_chars line = some info) :
    ∃ p s e, SpecProgressLine (trimChars line) p s e := by
  unfold parse_progress_chars at h
  split at h
  case h_2 => exact absurd h (by simp)
  case h_1 r heq =>
    split at h
    · exact absurd h (by simp)
    case isFalse hpe =>
      split at h
      case h_1 => exact absurd h (by simp)
      case h_2 g2 g3 heq2 =>
        split at h
        case h_1 => exact absurd h (by simp)
        case h_2 pct heq3 =>
          obtain ⟨hr, hg2, hg3⟩ := splitPipe_eq_some r g2 g3 heq2
          have hpchars : ∀ c ∈ (trimChars line).takeWhile isPercentChar,
              isPercentChar c = true := fun c hc => List.mem_takeWhile_imp hc
          have hpchars2 : ∀ c ∈ (trimChars line).takeWhile isPercentChar,
              c.isDigit = true ∨ c = '.' := by
            intro c hc
            have hcc := hpchars c hc
            simp only [isPercentChar, Bool.or_eq_true, decide_eq_true_eq] at hcc
            exact hcc
          have hl := List.takeWhile_append_dropWhile (p := isPercentChar)
            (l := trimChars line)
          rw [heq, hr] at hl
          have hnum := (parseDecimal_some_iff _ hpchars2).mp ⟨pct, heq3⟩
          refine ⟨(trimChars line).takeWhile isPercentChar, g2, g3, hl.symm,
            ⟨?_, hpchars2, hnum.1, hnum.2⟩, hg2, hg3⟩
          intro hE
          rw [hE] at hpe
          exact hpe rfl

/-- Counterexample for Claim C7: a line carrying the template's leading
`download:` token does not parse (the anchored regex rejects it; the
worker consumes that token as a progress-type selector, so output lines
do not carry it), while the same line without the token parses. -/
theorem parse_progress_template_token_cex :
    parse_progress_line "download:45.2%|2.5MiB/s|00:01:30" = none ∧
    parse_progress_line "45.2%|2.5MiB/s|00:01:30" =
      some { percent := 226 / 5, speed := some "2.5MiB/s", eta := some "00:01:30" } := by
  constructor
  · decide
  · have h0 : parse_progress_line "45.2%|2.5MiB/s|00:01:30" =
        some { percent := ((45 : Nat) : Rat) + ((2 : Nat) : Rat) / (10 : Rat) ^ (1 : Nat),
               speed := some "2.5MiB/s", eta := some "00:01:30" } := rfl
    rw [h0]
    simp only [Option.some.injEq, ProgressInfo.mk.injEq, and_true]
    norm_num

/-- Claim C7 (amended): a worker line whose trimmed content matches the
bare three-field pattern `<percent>%|<speed>|<eta>` — numeral percent,
pipe-free fields — parses to the numeric percent with empty, `N/A` and
`Unknown` speed/eta mapped to absent; every other line (including lines
bearing the template's `download:` prefix token, which the worker
consumes rather than prints) yields no snapshot and never an error. -/
theorem parse_progress_line_spec (line : String) :
    (∀ p s e, SpecProgressLine (trimChars line.data) p s e →
      ∃ v, parseDecimal p = some v ∧
        parse_progress_line line =
          some { percent := v, speed := mapField s, eta := mapField e }) ∧
    ((¬ ∃ p s e, SpecProgressLine (trimChars line.data) p s e) →
      parse_progress_line line = none) := by
  constructor
  · rintro p s e ⟨hl, ⟨hne, hchars, hdots, hdig⟩, hs, he⟩
    have hp : ∀ c ∈ p, isPercentChar c = true := by
      intro c hc
      rcases hchars c hc with h | h <;>
        simp [isPercentChar, h]
    obtain ⟨v, hv⟩ := (parseDecimal_some_iff p hchars).mpr ⟨hdots, hdig⟩
    exact ⟨v, hv, parse_progress_chars_some line.data p s e hl hp hne hs he v hv⟩
  · intro hno
    cases hparse : parse_progress_line line with
    | none => rfl
    | some info =>
      exact absurd (parse_progress_chars_decomposition line.data info hparse) hno

theorem minByCreated_mem (best : DownloadTaskInfo) (rs : List DownloadTaskInfo) :
    minByCreated best rs ∈ best :: rs := by
  induction rs generalizing best with
  | nil => exact List.mem_cons_self _ _
  | cons r t ih =>
    simp only [minByCreated]
    rcases List.mem_cons.mp (ih (if r.created_at < best.created_at then r else best))
      with h | h
    · rw [h]
      by_cases hc : r.created_at < best.created_at
      · rw [if_pos hc]
        exact List.mem_cons_of_mem _ (List.mem_cons_self _ _)
      · rw [if_neg hc]
        exact List.mem_cons_self _ _
    · exact List.mem_cons_of_mem _ (List.mem_cons_of_mem _ h)

theorem minByCreated_le (best : DownloadTaskInfo) (rs : List DownloadTaskInfo) :
    (minByCreated best rs).created_at ≤ best.created_at ∧
    ∀ r ∈ rs, (minByCreated best rs).created_at ≤ r.created_at := by
  induction rs generalizing best with
  | nil => exact ⟨le_refl _, fun r hr => absurd hr (List.not_mem_nil r)⟩
  | cons r t ih =>
    obtain ⟨ih1, ih2⟩ := ih (if r.created_at < best.created_at then r else best)
    simp only [minByCreated]
    constructor
    · refine le_trans ih1 ?_
      by_cases hc : r.created_at < best.created_at
      · rw [if_pos hc]; omega
      · rw [if_neg hc]
    · intro x hx
      rcases List.mem_cons.mp hx with h | h
      · subst h
        refine le_trans ih1 ?_
        by_cases hc : x.created_at < best.created_at
        · rw [if_pos hc]
        · rw [if_neg hc]; omega
      · exact ih2 x h

theorem ids_setDownloading (rows : List DownloadTaskInfo) (i : Nat) :
    (setDownloadingById rows i).map (fun r => r.id) = rows.map (fun r => r.id) := by
  rw [setDownloadingById, List.map_map]
  refine List.map_congr_left (fun r _ => ?_)
  by_cases h : r.id = i
  · simp [h]
  · simp [h]

/-- Inverting a successful claim: the returned row is the oldest Pending
row flipped to Downloading, and the new store is the conditional UPDATE
of the old one. -/
theorem claim_some_inv (db db1 : Database) (t : DownloadTaskInfo)
    (h : db.claim_next_pending = (db1, some t)) :
    (∃ ch ∈ db.downloads, ch.status = .Pending ∧ ch.id = t.id ∧
      ∀ r ∈ db.downloads, r.status = .Pending → ch.created_at ≤ r.created_at) ∧
    t.status = .Downloading ∧
    db1.downloads = setDownloadingById db.downloads t.id ∧
    db1.history = db.history ∧ db1.nextId = db.nextId ∧
    ∃ r1 ∈ db.downloads, r1.id = t.id ∧ t = { r1 with status := .Downloading } := by
  unfold Database.claim_next_pending at h
  cases hf : db.downloads.filter pendingP with
  | nil =>
    rw [hf] at h
    exact absurd (congrArg Prod.snd h) (by simp)
  | cons p ps =>
    rw [hf] at h
    have h2 : ({ db with downloads := setDownloadingById db.downloads (minByCreated p ps).id } : Database) = db1 ∧
        Database.get_download { db with downloads := setDownloadingById db.downloads (minByCreated p ps).id } (minByCreated p ps).id = some t := by
      rw [← Prod.mk.injEq]
      exact h
    obtain ⟨hdb1x, hget⟩ := h2
    have hdb1 := hdb1x.symm
    have hchmemf := minByCreated_mem p ps
    rw [← hf] at hchmemf
    obtain ⟨hchmem, hchpend⟩ := List.mem_filter.mp hchmemf
    have hchp : (minByCreated p ps).status = .Pending := by
      simpa [pendingP] using hchpend
    have hf_id : ∀ x : DownloadTaskInfo,
        ((if x.id = (minByCreated p ps).id then { x with status := .Downloading }
          else x) : DownloadTaskInfo).id = x.id := by
      intro x
      by_cases hx : x.id = (minByCreated p ps).id <;> simp [hx]
    rw [Database.get_download] at hget
    simp only at hget
    rw [setDownloadingById] at hget
    rw [find_map_preserving _ hf_id _ _] at hget
    cases hfind : db.downloads.find? (fun r => decide (r.id = (minByCreated p ps).id)) with
    | none => rw [hfind] at hget; exact absurd hget (by simp)
    | some r1 =>
      rw [hfind] at hget
      simp only [Option.map_some'] at hget
      have hr1id : r1.id = (minByCreated p ps).id := by
        simpa using List.find?_some hfind
      have ht : t = { r1 with status := .Downloading } := by
        rw [if_pos hr1id] at hget
        exact (Option.some.injEq _ _ ▸ hget).symm
      have htid : t.id = (minByCreated p ps).id := by rw [ht]; exact hr1id
      refine ⟨⟨minByCreated p ps, hchmem, hchp, htid.symm, ?_⟩, by rw [ht], ?_, ?_, ?_,
        r1, List.mem_of_find?_eq_some hfind, hr1id.trans htid.symm, ht⟩
      · intro r hr hrp
        have hrf : r ∈ p :: ps := by
          rw [← hf]
          exact List.mem_filter.mpr ⟨hr, by simp [pendingP, hrp]⟩
        obtain ⟨h1, h2⟩ := minByCreated_le p ps
        rcases List.mem_cons.mp hrf with hh | hh
        · rw [hh]; exact h1
        · exact h2 r hh
      · rw [hdb1, htid]
      · rw [hdb1]
      · rw [hdb1]

theorem claim_some_of_pending (db : Database)
    (hpend : ∃ r ∈ db.downloads, r.status = .Pending) :
    ∃ t, db.claim_next_pending.2 = some t := by
  obtain ⟨r0, hr0, hs0⟩ := hpend
  have hfil : r0 ∈ db.downloads.filter pendingP :=
    List.mem_filter.mpr ⟨hr0, by simp [pendingP, hs0]⟩
  cases hf : db.downloads.filter pendingP with
  | nil => rw [hf] at hfil; exact absurd hfil (List.not_mem_nil r0)
  | cons p ps =>
    have hchmemf := minByCreated_mem p ps
    rw [← hf] at hchmemf
    obtain ⟨hchmem, -⟩ := List.mem_filter.mp hchmemf
    simp only [Database.claim_next_pending, hf]
    rw [Database.get_download]
    simp only [setDownloadingById]
    have hf_id : ∀ x : DownloadTaskInfo,
        ((if x.id = (minByCreated p ps).id then { x with status := .Downloading }
          else x) : DownloadTaskInfo).id = x.id := by
      intro x
      by_cases hx : x.id = (minByCreated p ps).id <;> simp [hx]
    rw [find_map_preserving _ hf_id _ _]
    cases hfind : db.downloads.find? (fun r => decide (r.id = (minByCreated p ps).id)) with
    | none =>
      exfalso
      have : (db.downloads.find? (fun r => decide (r.id = (minByCreated p ps).id))).isSome :=
        List.find?_isSome.mpr ⟨minByCreated p ps, hchmem, by simp⟩
      rw [hfind] at this
      exact absurd this (by simp)
    | some r1 => exact ⟨_, rfl⟩

theorem claim_notpending (db db1 : Database) (t : DownloadTaskInfo)
    (h : db.claim_next_pending = (db1, some t)) :
    ∀ r ∈ db1.downloads, r.id = t.id → r.status ≠ .Pending := by
  obtain ⟨-, -, hdl1, -, -⟩ := claim_some_inv db db1 t h
  intro r hr hrid
  rw [hdl1, setDownloadingById, List.mem_map] at hr
  obtain ⟨r0, -, rfl⟩ := hr
  by_cases h0 : r0.id = t.id
  · rw [if_pos h0]
    intro hx
    exact absurd hx (by simp)
  · rw [if_neg h0] at hrid ⊢
    exact absurd hrid h0

theorem pending_mem_of_claim (db db1 : Database) (t : DownloadTaskInfo)
    (h : db.claim_next_pending = (db1, some t)) (r1 : DownloadTaskInfo)
    (hr1 : r1 ∈ db1.downloads) (hp1 : r1.status = .Pending) :
    ∃ r0 ∈ db.downloads, r0.id = r1.id ∧ r0.status = .Pending := by
  obtain ⟨-, -, hdl1, -, -⟩ := claim_some_inv db db1 t h
  rw [hdl1, setDownloadingById, List.mem_map] at hr1
  obtain ⟨r0, hr0, rfl⟩ := hr1
  by_cases h0 : r0.id = t.id
  · rw [if_pos h0] at hp1
    exact absurd hp1 (by simp)
  · rw [if_neg h0] at hp1 ⊢
    exact ⟨r0, hr0, rfl, hp1⟩

theorem countP_setDownloading (rows : List DownloadTaskInfo) (i : Nat) :
    (setDownloadingById rows i).countP pendingP +
      rows.countP (fun r => decide (r.id = i) && pendingP r) = rows.countP pendingP := by
  induction rows with
  | nil => rfl
  | cons a l ihl =>
    simp only [setDownloadingById, List.map_cons, List.countP_cons] at ihl ⊢
    have hstep : (if pendingP (if a.id = i then { a with status := .Downloading } else a) =
          true then 1 else 0) +
        (if (decide (a.id = i) && pendingP a) = true then 1 else 0) =
        (if pendingP a = true then 1 else 0) := by
      by_cases hid : a.id = i
      · rw [if_pos hid]
        simp [pendingP, hid]
      · rw [if_neg hid]
        simp [hid]
    omega

theorem countP_id_le_one (rows : List DownloadTaskInfo)
    (hids : (rows.map (fun r => r.id)).Nodup) (i : Nat) :
    rows.countP (fun r => decide (r.id = i)) ≤ 1 := by
  have hcount := List.nodup_iff_count_le_one.mp hids i
  rw [List.count_eq_countP, List.countP_map] at hcount
  refine le_trans (le_of_eq (List.countP_congr (fun r _ => ?_))) hcount
  simp [Function.comp]

theorem countP_pending_after_claim (db db1 : Database) (t : DownloadTaskInfo)
    (hids : (db.downloads.map (fun r => r.id)).Nodup)
    (h : db.claim_next_pending = (db1, some t)) :
    db1.downloads.countP pendingP + 1 = db.downloads.countP pendingP := by
  obtain ⟨⟨ch, hchmem, hchp, hchid, -⟩, -, hdl1, -, -⟩ := claim_some_inv db db1 t h
  have hkey := countP_setDownloading db.downloads t.id
  have hone : db.downloads.countP (fun r => decide (r.id = t.id) && pendingP r) = 1 := by
    have hge : 0 < db.downloads.countP (fun r => decide (r.id = t.id) && pendingP r) :=
      List.countP_pos_iff.mpr ⟨ch, hchmem, by simp [hchid, pendingP, hchp]⟩
    have hle1 : db.downloads.countP (fun r => decide (r.id = t.id) && pendingP r) ≤
        db.downloads.countP (fun r => decide (r.id = t.id)) :=
      List.countP_mono_left (fun r _ hr => by
        rw [Bool.and_eq_true] at hr
        exact hr.1)
    have hle2 := countP_id_le_one db.downloads hids t.id
    omega
  rw [hdl1]
  omega

theorem claimN_spec (C : Nat) : ∀ db : Database,
    (db.downloads.map (fun r => r.id)).Nodup →
    C ≤ db.downloads.countP pendingP →
    (claimN C db).2.length = C ∧
    ((claimN C db).2.map (fun t => t.id)).Nodup ∧
    (∀ t ∈ (claimN C db).2, ∃ r ∈ db.downloads, r.id = t.id ∧ r.status = .Pending) := by
  induction C with
  | zero =>
    intro db _ _
    exact ⟨rfl, List.nodup_nil, fun t ht => absurd ht (List.not_mem_nil t)⟩
  | succ n ih =>
    intro db hids hC
    have hpend : ∃ r ∈ db.downloads, r.status = .Pending := by
      by_contra hno
      push_neg at hno
      have hz : db.downloads.countP pendingP = 0 :=
        List.countP_eq_zero.mpr (fun r hr => by simp [pendingP, hno r hr])
      omega
    obtain ⟨t, ht2⟩ := claim_some_of_pending db hpend
    rcases hcp : db.claim_next_pending with ⟨db1, o⟩
    rw [hcp] at ht2
    simp only at ht2
    subst ht2
    obtain ⟨⟨ch, hchmem, hchp, hchid, -⟩, -, hdl1, -, -⟩ :=
      claim_some_inv db db1 t hcp
    have hids1 : (db1.downloads.map (fun r => r.id)).Nodup := by
      rw [hdl1, ids_setDownloading]
      exact hids
    have hcount1 := countP_pending_after_claim db db1 t hids hcp
    have hC1 : n ≤ db1.downloads.countP pendingP := by omega
    obtain ⟨ihlen, ihnodup, ihpend⟩ := ih db1 hids1 hC1
    have hstep : claimN (n + 1) db = ((claimN n db1).1, t :: (claimN n db1).2) := by
      simp only [claimN, hcp]
    rw [hstep]
    refine ⟨by simp [ihlen], ?_, ?_⟩
    · simp only [List.map_cons, List.nodup_cons]
      refine ⟨?_, ihnodup⟩
      intro hmem
      rw [List.mem_map] at hmem
      obtain ⟨t', ht', hid'⟩ := hmem
      obtain ⟨r1, hr1mem, hr1id, hr1p⟩ := ihpend t' ht'
      exact claim_notpending db db1 t hcp r1 hr1mem (by rw [hr1id, hid']) hr1p
    · intro t' ht'
      rcases List.mem_cons.mp ht' with h | h
      · subst h
        exact ⟨ch, hchmem, hchid, hchp⟩
      · obtain ⟨r1, hr1mem, hr1id, hr1p⟩ := ihpend t' h
        obtain ⟨r0, hr0mem, hr0id, hr0p⟩ :=
          pending_mem_of_claim db db1 t hcp r1 hr1mem hr1p
        exact ⟨r0, hr0mem, by rw [hr0id, hr1id], hr0p⟩

/-- Claim C1: `claim_next_pending` returns nothing exactly when no row is
Pending; otherwise it flips the oldest Pending row to Downloading and
returns it; and C successive invocations against a store holding at
least C Pending rows return C rows with pairwise distinct ids (racing
invocations are serialized by the store's connection lock, so any
interleaving is one such sequence). -/
theorem claim_next_pending_spec (db : Database)
    (hids : (db.downloads.map (fun r => r.id)).Nodup) :
    (db.claim_next_pending.2 = none ↔ ∀ r ∈ db.downloads, r.status ≠ .Pending) ∧
    (∀ t, db.claim_next_pending.2 = some t →
      t.status = .Downloading ∧
      ∃ ch ∈ db.downloads, ch.id = t.id ∧ ch.status = .Pending ∧
        t = { ch with status := .Downloading } ∧
        ∀ r ∈ db.downloads, r.status = .Pending → ch.created_at ≤ r.created_at) ∧
    (∀ C, C ≤ db.downloads.countP pendingP →
      (claimN C db).2.length = C ∧ ((claimN C db).2.map (fun t => t.id)).Nodup) := by
  refine ⟨⟨?_, ?_⟩, ?_, ?_⟩
  · intro hnone r hr hrp
    obtain ⟨t, ht⟩ := claim_some_of_pending db ⟨r, hr, hrp⟩
    rw [hnone] at ht
    exact absurd ht (by simp)
  · intro hno
    have hfil : db.downloads.filter pendingP = [] :=
      List.filter_eq_nil_iff.mpr (fun r hr => by simp [pendingP, hno r hr])
    simp only [Database.claim_next_pending, hfil]
  · intro t ht2
    have hpair : db.claim_next_pending = (db.claim_next_pending.1, some t) := by
      rw [← ht2]
    obtain ⟨⟨ch, hchmem, hchp, hchid, hchmin⟩, htD, -, -, -, r1, hr1mem, hr1id, ht⟩ :=
      claim_some_inv db db.claim_next_pending.1 t hpair
    have hcr : ch = r1 :=
      List.inj_on_of_nodup_map hids hchmem hr1mem (hchid.trans hr1id.symm)
    refine ⟨htD, ch, hchmem, hchid, hchp, ?_, hchmin⟩
    rw [hcr]
    exact ht
  · intro C hC
    obtain ⟨h1, h2, -⟩ := claimN_spec C db hids hC
    exact ⟨h1, h2⟩

/-- Witness for C1: two claims against a store with two Pending rows
return two rows with distinct ids. -/
theorem claim_next_pending_spec_witness :
    (sampleDb2.downloads.map (fun r => r.id)).Nodup ∧
    ((claimN 2 sampleDb2).2.length = 2 ∧
      ((claimN 2 sampleDb2).2.map (fun t => t.id)).Nodup) :=
  ⟨by decide, (claim_next_pending_spec sampleDb2 (by decide)).2.2 2 (by decide)⟩

theorem get_download_mark_completed (db : Database) (id : Nat) (ts : Int)
    (r : DownloadTaskInfo) (hr : db.get_download id = some r) :
    (db.mark_completed id ts).get_download id =
      some { r with status := .Completed, completed_at := some ts, progress := 100 } := by
  simp only [Database.get_download] at hr
  have hf : ∀ x : DownloadTaskInfo,
      ((if x.id = id then
          { x with status := .Completed, completed_at := some ts, progress := 100 }
        else x) : DownloadTaskInfo).id = x.id := by
    intro x
    by_cases hx : x.id = id <;> simp [hx]
  show ((db.downloads.map _).find? _) = _
  rw [find_map_preserving _ hf _ id, hr]
  simp only [Option.map_some']
  rw [if_pos (by simpa using List.find?_some hr)]

/-- Counterexample for Claim C2: when the completion transaction fails
(here: at commit) the executor's fallback still marks the task Completed
while no history row is inserted — precisely the torn state the claim
rules out. -/
theorem complete_and_record_fallback_cex :
    ((finishSuccess sampleDbD 2 20 sampleHistory ⟨true, true, false⟩ true).get_download 2).map
        (fun r => r.status) = some .Completed ∧
    (finishSuccess sampleDbD 2 20 sampleHistory ⟨true, true, false⟩ true).history = [] :=
  ⟨rfl, rfl⟩

/-- Claim C2 (amended): `complete_and_record` itself is atomic — on
success both the Completed update and the history insert are applied, on
any statement or commit failure the transaction rolls back and the store
keeps its prior state — but `execute_download` reacts to that failure by
falling back to a bare `mark_completed`, so a task marked Completed
without its history row can be produced when the transaction fails and
the fallback succeeds. -/
theorem complete_and_record_spec (db : Database) (id : Nat) (ts : Int) (h : HistoryItem)
    (o : TxOutcome) (fb : Bool) :
    (∀ db2, db.complete_and_record id ts h o = some db2 →
      db2.history = db.history ++ [h] ∧
      db2.downloads = (db.mark_completed id ts).downloads ∧
      ∀ r, db.get_download id = some r →
        db2.get_download id =
          some { r with status := .Completed, completed_at := some ts, progress := 100 }) ∧
    (∀ db2, db.complete_and_record id ts h o = some db2 →
      finishSuccess db id ts h o fb = db2) ∧
    (db.complete_and_record id ts h o = none →
      finishSuccess db id ts h o fb = if fb then db.mark_completed id ts else db) ∧
    (db.complete_and_record id ts h o = none → fb = true →
      (finishSuccess db id ts h o fb).history = db.history ∧
      ∀ r, db.get_download id = some r →
        (finishSuccess db id ts h o fb).get_download id =
          some { r with status := .Completed, completed_at := some ts, progress := 100 }) := by
  refine ⟨?_, ?_, ?_, ?_⟩
  · intro db2 hsome
    have hcase : db2 = (db.mark_completed id ts).insertHistoryRow h := by
      unfold Database.complete_and_record at hsome
      by_cases hu : o.updateOk = true
      · rw [if_pos hu] at hsome
        by_cases hi : o.insertOk = true
        · rw [if_pos hi] at hsome
          by_cases hc : o.commitOk = true
          · rw [if_pos hc] at hsome
            exact (Option.some.inj hsome).symm
          · rw [if_neg hc] at hsome
            exact absurd hsome (by simp)
        · rw [if_neg hi] at hsome
          exact absurd hsome (by simp)
      · rw [if_neg hu] at hsome
        exact absurd hsome (by simp)
    subst hcase
    refine ⟨rfl, rfl, ?_⟩
    intro r hr
    exact get_download_mark_completed db id ts r hr
  · intro db2 hsome
    unfold finishSuccess
    rw [hsome]
  · intro hnone
    unfold finishSuccess
    rw [hnone]
  · intro hnone hfb
    subst hfb
    unfold finishSuccess
    rw [hnone]
    refine ⟨rfl, ?_⟩
    intro r hr
    exact get_download_mark_completed db id ts r hr

theorem ids_map_preserving (l : List DownloadTaskInfo)
    (f : DownloadTaskInfo → DownloadTaskInfo) (hf : ∀ x, (f x).id = x.id) :
    (l.map f).map (fun r => r.id) = l.map (fun r => r.id) := by
  rw [List.map_map]
  exact List.map_congr_left (fun a _ => hf a)

theorem update_status_row_id (id : Nat) (st : DownloadStatus) (msg : Option String)
    (x : DownloadTaskInfo) :
    ((if x.id = id then { x with status := st, error_message := msg }
      else x) : DownloadTaskInfo).id = x.id := by
  by_cases hx : x.id = id <;> simp [hx]

/-- The UPDATE of `update_download_status` touches only the status and
error-message columns of the matching row. -/
theorem update_status_row_fields (id : Nat) (st : DownloadStatus) (msg : Option String)
    (x : DownloadTaskInfo) :
    (((if x.id = id then { x with status := st, error_message := msg }
      else x) : DownloadTaskInfo).video_url = x.video_url ∧
     ((if x.id = id then { x with status := st, error_message := msg }
      else x) : DownloadTaskInfo).video_id = x.video_id ∧
     ((if x.id = id then { x with status := st, error_message := msg }
      else x) : DownloadTaskInfo).title = x.title ∧
     ((if x.id = id then { x with status := st, error_message := msg }
      else x) : DownloadTaskInfo).format_id = x.format_id ∧
     ((if x.id = id then { x with status := st, error_message := msg }
      else x) : DownloadTaskInfo).quality_label = x.quality_label ∧
     ((if x.id = id then { x with status := st, error_message := msg }
      else x) : DownloadTaskInfo).output_path = x.output_path ∧
     ((if x.id = id then { x with status := st, error_message := msg }
      else x) : DownloadTaskInfo).created_at = x.created_at) := by
  by_cases hx : x.id = id <;> simp [hx]

theorem get_download_update_status (db : Database) (id : Nat) (st : DownloadStatus)
    (msg : Option String) (r : DownloadTaskInfo) (hr : db.get_download id = some r) :
    (db.update_download_status id st msg).get_download id =
      some { r with status := st, error_message := msg } := by
  simp only [Database.get_download] at hr
  show ((db.downloads.map _).find? _) = _
  rw [find_map_preserving _ (update_status_row_id id st msg) _ id, hr]
  simp only [Option.map_some']
  rw [if_pos (by simpa using List.find?_some hr)]

/-- Claim C8: retrying an existing Failed task creates no new row — the
row count, every row's id, the history, and every row's request fields
(URL, video id, title, format, quality, output path, creation timestamp)
are unchanged — and the same row is reset to Pending (or claimed
straight to Downloading when a slot was acquired) with its error cleared. -/
theorem retry_download_spec (db : Database) (id : Nat) (acq : Bool)
    (r : DownloadTaskInfo) (hget : db.get_download id = some r)
    (_hst : r.status = .Failed) :
    ∃ db2, retry_download db id acq = some db2 ∧
      db2.downloads.length = db.downloads.length ∧
      db2.downloads.map (fun x => x.id) = db.downloads.map (fun x => x.id) ∧
      db2.history = db.history ∧
      (∀ i (h1 : i < db.downloads.length) (h2 : i < db2.downloads.length),
        db2.downloads[i].video_url = db.downloads[i].video_url ∧
        db2.downloads[i].video_id = db.downloads[i].video_id ∧
        db2.downloads[i].title = db.downloads[i].title ∧
        db2.downloads[i].format_id = db.downloads[i].format_id ∧
        db2.downloads[i].quality_label = db.downloads[i].quality_label ∧
        db2.downloads[i].output_path = db.downloads[i].output_path ∧
        db2.downloads[i].created_at = db.downloads[i].created_at) ∧
      db2.get_download id =
        some { r with
          status := (if acq then DownloadStatus.Downloading else DownloadStatus.Pending),
          error_message := none } := by
  have hmain : retry_download db id acq = some (if acq then
      (db.update_download_status id .Pending none).update_download_status id .Downloading none
      else db.update_download_status id .Pending none) := by
    unfold retry_download
    rw [hget]
  refine ⟨_, hmain, ?_⟩
  cases acq with
  | false =>
    rw [if_neg (by simp)]
    refine ⟨by simp [Database.update_download_status], ?_, rfl, ?_, ?_⟩
    · exact ids_map_preserving _ _ (update_status_row_id id .Pending none)
    · intro i h1 h2
      simp only [Database.update_download_status, List.getElem_map]
      exact update_status_row_fields id .Pending none db.downloads[i]
    · rw [if_neg (by simp)]
      exact get_download_update_status db id .Pending none r hget
  | true =>
    rw [if_pos rfl]
    have hget1 := get_download_update_status db id .Pending none r hget
    refine ⟨by simp [Database.update_download_status], ?_, rfl, ?_, ?_⟩
    · rw [show ((db.update_download_status id .Pending none).update_download_status
          id .Downloading none).downloads.map (fun x => x.id) =
          ((db.update_download_status id .Pending none).downloads.map (fun x => x.id)) from
        ids_map_preserving _ _ (update_status_row_id id .Downloading none)]
      exact ids_map_preserving _ _ (update_status_row_id id .Pending none)
    · intro i h1 h2
      have h3 : i < (db.update_download_status id .Pending none).downloads.length := by
        simpa [Database.update_download_status] using h1
      have s2 := update_status_row_fields id .Downloading none
        (db.update_download_status id .Pending none).downloads[i]
      have s1 := update_status_row_fields id .Pending none db.downloads[i]
      simp only [Database.update_download_status, List.getElem_map] at s2 ⊢
      simp only [Database.update_download_status] at s1
      obtain ⟨a1, a2, a3, a4, a5, a6, a7⟩ := s1
      obtain ⟨b1, b2, b3, b4, b5, b6, b7⟩ := s2
      exact ⟨by rw [b1, a1], by rw [b2, a2], by rw [b3, a3], by rw [b4, a4],
        by rw [b5, a5], by rw [b6, a6], by rw [b7, a7]⟩
    · rw [if_pos rfl]
      have := get_download_update_status (db.update_download_status id .Pending none)
        id .Downloading none _ hget1
      exact this


/-- Witness for C8: retrying the sample Failed row keeps the row count at
one. -/
theorem retry_download_spec_witness :
    (retry_download sampleDbF 1 false).map (fun db2 => db2.downloads.length) = some 1 := by
  obtain ⟨db2, hmain, hlen, -⟩ := retry_download_spec sampleDbF 1 false sampleFailedRow rfl rfl
  rw [hmain]
  simpa using hlen

theorem find_append_left (l1 l2 : List DownloadTaskInfo) (p : DownloadTaskInfo → Bool)
    (a : DownloadTaskInfo) (h : l1.find? p = some a) : (l1 ++ l2).find? p = some a := by
  induction l1 with
  | nil => exact absurd h (by simp)
  | cons x t ih =>
    by_cases hx : p x = true
    · rw [List.find?_cons_of_pos _ hx] at h
      rw [List.cons_append, List.find?_cons_of_pos _ hx]
      exact h
    · rw [List.find?_cons_of_neg _ hx] at h
      rw [List.cons_append, List.find?_cons_of_neg _ hx]
      exact ih h

/-- `claim_next_pending` leaves the history and rowid counter alone, and
either leaves the rows alone or flips one Pending row. -/
theorem claim_fst_inv (db : Database) :
    (db.claim_next_pending.1.history = db.history ∧
     db.claim_next_pending.1.nextId = db.nextId) ∧
    ((db.claim_next_pending.1).downloads = db.downloads ∨
      ∃ ch ∈ db.downloads, ch.status = .Pending ∧
        (db.claim_next_pending.1).downloads = setDownloadingById db.downloads ch.id) := by
  cases hf : db.downloads.filter pendingP with
  | nil =>
    have h1 : db.claim_next_pending.1 = db := by
      simp only [Database.claim_next_pending, hf]
    rw [h1]
    exact ⟨⟨rfl, rfl⟩, Or.inl rfl⟩
  | cons p ps =>
    have h1 : db.claim_next_pending.1 =
        { db with downloads := setDownloadingById db.downloads (minByCreated p ps).id } := by
      simp only [Database.claim_next_pending, hf]
    rw [h1]
    have hm := minByCreated_mem p ps
    rw [← hf] at hm
    refine ⟨⟨rfl, rfl⟩, Or.inr ⟨minByCreated p ps, (List.mem_filter.mp hm).1, ?_, rfl⟩⟩
    simpa [pendingP] using (List.mem_filter.mp hm).2

/-- The executor's success handling ends in one of three row states:
the completed-update applied (transaction or fallback), or untouched. -/
theorem finishSuccess_shape (db : Database) (id : Nat) (ts : Int) (h : HistoryItem)
    (o : TxOutcome) (fb : Bool) :
    ((finishSuccess db id ts h o fb).downloads = (db.mark_completed id ts).downloads ∨
     (finishSuccess db id ts h o fb).downloads = db.downloads) ∧
    (finishSuccess db id ts h o fb).nextId = db.nextId := by
  unfold finishSuccess Database.complete_and_record
  by_cases hu : o.updateOk = true
  · rw [if_pos hu]
    by_cases hi : o.insertOk = true
    · rw [if_pos hi]
      by_cases hc : o.commitOk = true
      · rw [if_pos hc]
        exact ⟨Or.inl rfl, rfl⟩
      · rw [if_neg hc]
        by_cases hfb : fb = true
        · rw [if_pos hfb]
          exact ⟨Or.inl rfl, rfl⟩
        · rw [if_neg hfb]
          exact ⟨Or.inr rfl, rfl⟩
    · rw [if_neg hi]
      by_cases hfb : fb = true
      · rw [if_pos hfb]
        exact ⟨Or.inl rfl, rfl⟩
      · rw [if_neg hfb]
        exact ⟨Or.inr rfl, rfl⟩
  · rw [if_neg hu]
    by_cases hfb : fb = true
    · rw [if_pos hfb]
      exact ⟨Or.inl rfl, rfl⟩
    · rw [if_neg hfb]
      exact ⟨Or.inr rfl, rfl⟩

theorem get_download_update_other (db : Database) (idu : Nat) (st : DownloadStatus)
    (msg : Option String) (id : Nat) (r : DownloadTaskInfo)
    (hget : db.get_download id = some r) (hne : ¬r.id = idu) :
    (db.update_download_status idu st msg).get_download id = some r := by
  simp only [Database.get_download] at hget
  show ((db.downloads.map _).find? _) = _
  rw [find_map_preserving _ (update_status_row_id idu st msg) _ id, hget]
  simp only [Option.map_some']
  rw [if_neg hne]

theorem WF_of_map (db db2 : Database) (f : DownloadTaskInfo → DownloadTaskInfo)
    (hf : ∀ x, (f x).id = x.id) (hdl : db2.downloads = db.downloads.map f)
    (hnext : db2.nextId = db.nextId) (hwf : db.WF) : db2.WF := by
  obtain ⟨hids, hbound⟩ := hwf
  constructor
  · rw [hdl, ids_map_preserving _ _ hf]
    exact hids
  · intro r hr
    rw [hdl, List.mem_map] at hr
    obtain ⟨x, hx, rfl⟩ := hr
    rw [hf, hnext]
    exact hbound x hx

/-- One guarded store operation never moves a Completed row out of
Completed. -/
theorem completed_stable_applyOp (db : Database) (op : QueueOp)
    (hids : (db.downloads.map (fun r => r.id)).Nodup) (hg : opGuarded db op)
    (id : Nat) (r : DownloadTaskInfo) (hget : db.get_download id = some r)
    (hst : r.status = .Completed) :
    ∃ r2, (applyOp db op).get_download id = some r2 ∧ r2.status = .Completed := by
  have hget2 : db.downloads.find? (fun x => decide (x.id = id)) = some r := by
    simpa [Database.get_download] using hget
  have hrid : r.id = id := by
    have hd := List.find?_some hget2
    simpa using hd
  have hrmem : r ∈ db.downloads := List.mem_of_find?_eq_some hget2
  cases op with
  | enqueue req path ts =>
    refine ⟨r, ?_, hst⟩
    simp only [applyOp, Database.insert_download, Database.get_download] at hget ⊢
    exact find_append_left _ _ _ _ hget
  | claim =>
    obtain ⟨-, hshape⟩ := claim_fst_inv db
    rcases hshape with hsame | ⟨ch, hchmem, hchp, hset⟩
    · refine ⟨r, ?_, hst⟩
      simp only [applyOp, Database.get_download]
      rw [hsame]
      simpa [Database.get_download] using hget
    · have hne : ¬r.id = ch.id := by
        intro hEq
        have := List.inj_on_of_nodup_map hids hrmem hchmem hEq
        rw [this, hchp] at hst
        exact absurd hst (by simp)
      refine ⟨r, ?_, hst⟩
      simp only [applyOp, Database.get_download]
      rw [hset, setDownloadingById]
      have hfid : ∀ x : DownloadTaskInfo,
          ((if x.id = ch.id then { x with status := .Downloading }
            else x) : DownloadTaskInfo).id = x.id := by
        intro x
        by_cases hx : x.id = ch.id <;> simp [hx]
      rw [find_map_preserving _ hfid _ id, hget2]
      simp only [Option.map_some']
      rw [if_neg hne]
  | dispatch idu =>
    have hne : ¬r.id = idu := by
      intro hEq
      have := hg r hrmem hEq
      rw [hst] at this
      exact absurd this (by simp)
    exact ⟨r, get_download_update_other db idu .Downloading none id r hget hne, hst⟩
  | fail idu msg =>
    have hne : ¬r.id = idu := by
      intro hEq
      rcases hg r hrmem hEq with hx | hx <;> rw [hst] at hx <;> exact absurd hx (by simp)
    exact ⟨r, get_download_update_other db idu .Failed (some msg) id r hget hne, hst⟩
  | forceCancel idu =>
    have hne : ¬r.id = idu := by
      intro hEq
      rcases hg r hrmem hEq with hx | hx <;> rw [hst] at hx <;> exact absurd hx (by simp)
    exact ⟨r, get_download_update_other db idu .Cancelled none id r hget hne, hst⟩
  | cancel idu =>
    refine ⟨r, ?_, hst⟩
    simp only [applyOp, Database.cancel_if_active, Database.get_download]
    have hfid : ∀ x : DownloadTaskInfo,
        ((if x.id = idu ∧ isActiveStatus x.status then { x with status := .Cancelled }
          else x) : DownloadTaskInfo).id = x.id := by
      intro x
      by_cases hx : x.id = idu ∧ isActiveStatus x.status <;> simp [hx]
    rw [find_map_preserving _ hfid _ id, hget2]
    simp only [Option.map_some']
    rw [if_neg]
    rintro ⟨-, ha⟩
    rw [hst] at ha
    exact absurd ha (by simp [isActiveStatus])
  | complete idu ts h o fb =>
    obtain ⟨hdl, -⟩ := finishSuccess_shape db idu ts h o fb
    rcases hdl with hmc | hsame
    · have hfid : ∀ x : DownloadTaskInfo,
          ((if x.id = idu then
              { x with status := .Completed, completed_at := some ts, progress := 100 }
            else x) : DownloadTaskInfo).id = x.id := by
        intro x
        by_cases hx : x.id = idu <;> simp [hx]
      refine ⟨if r.id = idu then
          { r with status := .Completed, completed_at := some ts, progress := 100 }
        else r, ?_, ?_⟩
      · simp only [applyOp, Database.get_download]
        rw [hmc]
        simp only [Database.mark_completed]
        rw [find_map_preserving _ hfid _ id, hget2]
        rfl
      · by_cases hx : r.id = idu
        · rw [if_pos hx]
        · rw [if_neg hx]
          exact hst
    · refine ⟨r, ?_, hst⟩
      simp only [applyOp, Database.get_download]
      rw [hsame]
      simpa [Database.get_download] using hget
  | sweep =>
    refine ⟨r, ?_, hst⟩
    simp only [applyOp, Database.reset_stale_downloads, Database.get_download]
    have hfid : ∀ x : DownloadTaskInfo,
        ((if x.status = DownloadStatus.Downloading then
            { x with status := .Failed, error_message := some "App closed during download" }
          else x) : DownloadTaskInfo).id = x.id := by
      intro x
      by_cases hx : x.status = DownloadStatus.Downloading <;> simp [hx]
    rw [find_map_preserving _ hfid _ id, hget2]
    simp only [Option.map_some']
    rw [if_neg]
    intro hx
    rw [hst] at hx
    exact absurd hx (by simp)
  | retry idu acq =>
    have hne : ¬r.id = idu := by
      intro hEq
      rcases hg r hrmem hEq with hx | hx <;> rw [hst] at hx <;> exact absurd hx (by simp)
    cases hgd : db.get_download idu with
    | none =>
      refine ⟨r, ?_, hst⟩
      have happ : applyOp db (.retry idu acq) = db := by
        simp only [applyOp, retry_download, hgd]
        rfl
      rw [happ]
      exact hget
    | some r0 =>
      have happ : applyOp db (.retry idu acq) = (if acq then
          (db.update_download_status idu .Pending none).update_download_status
            idu .Downloading none
          else db.update_download_status idu .Pending none) := by
        simp only [applyOp, retry_download, hgd]
        rfl
      rw [happ]
      cases acq with
      | false =>
        rw [if_neg (by simp)]
        exact ⟨r, get_download_update_other db idu .Pending none id r hget hne, hst⟩
      | true =>
        rw [if_pos rfl]
        have h1 := get_download_update_other db idu .Pending none id r hget hne
        exact ⟨r, get_download_update_other _ idu .Downloading none id r h1 hne, hst⟩

/-- Guarded operations preserve the store's well-formedness. -/
theorem WF_applyOp (db : Database) (op : QueueOp) (hwf : db.WF) : (applyOp db op).WF := by
  obtain ⟨hids, hbound⟩ := hwf
  cases op with
  | enqueue req path ts =>
    constructor
    · simp only [applyOp, Database.insert_download, List.map_append, List.map_cons,
        List.map_nil]
      rw [List.nodup_append]
      refine ⟨hids, List.nodup_singleton _, ?_⟩
      intro a ha hb
      simp only [List.mem_singleton] at hb
      subst hb
      rw [List.mem_map] at ha
      obtain ⟨x, hx, hxid⟩ := ha
      have := hbound x hx
      omega
    · intro r hr
      simp only [applyOp, Database.insert_download, List.mem_append,
        List.mem_singleton] at hr
      simp only [applyOp, Database.insert_download]
      rcases hr with hr | hr
      · exact lt_trans (hbound r hr) (Nat.lt_succ_self _)
      · subst hr
        exact Nat.lt_succ_self _
  | claim =>
    obtain ⟨⟨-, hnext⟩, hshape⟩ := claim_fst_inv db
    show (db.claim_next_pending.1).WF
    rcases hshape with hsame | ⟨ch, -, -, hset⟩
    · constructor
      · rw [hsame]; exact hids
      · intro r hr
        rw [hsame] at hr
        rw [hnext]
        exact hbound r hr
    · refine WF_of_map db _ _ ?_ (by rw [hset]; rfl) hnext ⟨hids, hbound⟩
      intro x
      by_cases hx : x.id = ch.id <;> simp [hx]
  | dispatch idu =>
    refine WF_of_map db _ _ (update_status_row_id idu .Downloading none) rfl rfl
      ⟨hids, hbound⟩
  | fail idu msg =>
    refine WF_of_map db _ _ (update_status_row_id idu .Failed (some msg)) rfl rfl
      ⟨hids, hbound⟩
  | forceCancel idu =>
    refine WF_of_map db _ _ (update_status_row_id idu .Cancelled none) rfl rfl
      ⟨hids, hbound⟩
  | cancel idu =>
    refine WF_of_map db _ _ ?_ rfl rfl ⟨hids, hbound⟩
    intro x
    by_cases hx : x.id = idu ∧ isActiveStatus x.status <;> simp [hx]
  | complete idu ts h o fb =>
    obtain ⟨hdl, hnext⟩ := finishSuccess_shape db idu ts h o fb
    show (finishSuccess db idu ts h o fb).WF
    rcases hdl with hmc | hsame
    · refine WF_of_map db _ _ ?_ (by rw [hmc]; rfl) hnext ⟨hids, hbound⟩
      intro x
      by_cases hx : x.id = idu <;> simp [hx]
    · constructor
      · rw [hsame]
        exact hids
      · intro r hr
        rw [hsame] at hr
        rw [hnext]
        exact hbound r hr
  | sweep =>
    refine WF_of_map db _ _ ?_ rfl rfl ⟨hids, hbound⟩
    intro x
    by_cases hx : x.status = DownloadStatus.Downloading <;> simp [hx]
  | retry idu acq =>
    cases hgd : db.get_download idu with
    | none =>
      have happ : applyOp db (.retry idu acq) = db := by
        simp only [applyOp, retry_download, hgd]
        rfl
      rw [happ]
      exact ⟨hids, hbound⟩
    | some r0 =>
      have happ : applyOp db (.retry idu acq) = (if acq then
          (db.update_download_status idu .Pending none).update_download_status
            idu .Downloading none
          else db.update_download_status idu .Pending none) := by
        simp only [applyOp, retry_download, hgd]
        rfl
      rw [happ]
      have h1 : (db.update_download_status idu .Pending none).WF :=
        WF_of_map db _ _ (update_status_row_id idu .Pending none) rfl rfl ⟨hids, hbound⟩
      cases acq with
      | false =>
        rw [if_neg (by simp)]
        exact h1
      | true =>
        rw [if_pos rfl]
        exact WF_of_map _ _ _ (update_status_row_id idu .Downloading none) rfl rfl h1

/-- Counterexample for Claim C3: `retry_download` performs no status
check, so invoking it on a Completed row moves that row back to Pending. -/
theorem retry_completed_cex :
    (sampleDbC.get_download 3).map (fun r => r.status) = some .Completed ∧
    ((retry_download sampleDbC 3 false).map
      (fun db2 => (db2.get_download 3).map (fun r => r.status))) = some (some .Pending) :=
  ⟨rfl, rfl⟩

/-- Claim C3 (amended): along any trace of store operations issued under
their call-site guards — dispatch on a Pending row, the executor's
Failed/Cancelled writes on its claimed (Downloading or
already-Cancelled) task, and retry restricted to Failed or Cancelled
rows, the restriction `retry_download` itself does not enforce — a row
that is Completed stays Completed; in particular it never returns to
Pending or Downloading. Unrestricted retry breaks this (see the
counterexample): the code lets a Completed row be reset to Pending. -/
theorem guarded_trace_completed_stable (ops : List QueueOp) : ∀ db : Database, db.WF →
    GuardedTrace db ops → ∀ id r, db.get_download id = some r → r.status = .Completed →
    ∃ r2, (applyOps db ops).get_download id = some r2 ∧ r2.status = .Completed := by
  induction ops with
  | nil =>
    intro db _ _ id r hget hst
    exact ⟨r, hget, hst⟩
  | cons op ops ih =>
    intro db hwf hgt id r hget hst
    obtain ⟨hg, hgt2⟩ := hgt
    obtain ⟨r2, hget2, hst2⟩ := completed_stable_applyOp db op hwf.1 hg id r hget hst
    exact ih (applyOp db op) (WF_applyOp db op hwf) hgt2 id r2 hget2 hst2

/-- Witness for C3 (amended): a claim against a store holding one
Completed row leaves that row Completed. -/
theorem guarded_trace_completed_stable_witness :
    ((applyOps sampleDbC [QueueOp.claim]).get_download 3).map (fun r => r.status) =
      some .Completed := by
  obtain ⟨r2, hget2, hst2⟩ := guarded_trace_completed_stable [QueueOp.claim] sampleDbC
    (by constructor <;> decide) ⟨trivial, trivial⟩ 3 sampleCompletedRow rfl rfl
  rw [hget2, Option.map_some', hst2]
